import Mathlib

/-!
# The Node binding of the sass grammar

`bindings/node/binding.cc` registers one module initialiser, `Init`, which
assigns two properties on the `exports` object handed to it and returns that
object.  The first part of this file embeds the few node-addon-api
operations `Init` uses and proves what `Init` does to the environment.

JavaScript objects are heap values that C++ code reaches through handles, so
the environment is an explicit heap from object references to objects, and
every operation that may write a property returns the new heap.  An
assignment `obj[key] = value` is a JavaScript property set: it walks the
prototype chain, it is dropped without an error on a read-only property or a
non-extensible object, and it runs JavaScript code (a setter, the trap of a
proxy) that may change the heap or throw.  That code is a parameter.
-/

namespace Napi

/-- The JavaScript values `Init` creates or may find on `exports`. -/
inductive Value where
  | undefined
  | boolean (b : Bool)
  | number (n : Int)
  | string (utf8 : String)
  | external (data : Nat)
  | object (ref : Nat)
  deriving DecidableEq, Repr

/-- One property of an object: a data property with its value and its
`writable` attribute, or an accessor property with its setter, if it has
one (a JavaScript function, named by its number). -/
inductive Property where
  | data (value : Value) (writable : Bool)
  | accessor (setter : Option Nat)
  deriving DecidableEq, Repr

/-- Own properties of one object, in insertion order. -/
abbrev Props := List (String × Property)

/-- The own property stored under `key`, if any. -/
def Props.get : Props → String → Option Property
  | [], _ => none
  | (k, p) :: rest, key => if k = key then some p else Props.get rest key

/-- Stores a property under `key`: an existing entry keeps its place, a new
key is appended. -/
def Props.set : Props → String → Property → Props
  | [], key, p => [(key, p)]
  | (k, q) :: rest, key, p =>
      if k = key then (k, p) :: rest else (k, q) :: Props.set rest key p

/-- The names of the properties of a property list. -/
def Props.keys (ps : Props) : List String := ps.map Prod.fst

/-- One object of the heap: its own properties, whether it is extensible,
its prototype, and whether it is an exotic object with a property set of its
own (a proxy). -/
structure ObjectData where
  props : Props
  extensible : Bool
  proto : Option Nat
  exotic : Bool

/-- `Napi::Env`: the heap of the environment.  `size` is the number of
objects allocated; prototype chains have no cycle, so none is longer. -/
structure Env where
  objects : Nat → ObjectData
  size : Nat

/-- How a call ends: normally with a result, or by an exception. -/
inductive Completion (α : Type) where
  | normal (result : α)
  | throw (exception : Value)
  deriving DecidableEq, Repr

/-- The JavaScript code a property set can run: `call f receiver value env`
calls the setter `f` on `receiver` with the value, `exoticSet o key value
receiver env` is the property set of the exotic object `o`.  Each gives the
heap afterwards and says whether an exception was thrown. -/
structure Host where
  call : Nat → Nat → Value → Env → Env × Completion Unit
  exoticSet : Nat → String → Value → Nat → Env → Env × Completion Unit

/-- `Napi::Object`: a handle, the reference of an object of the heap. -/
structure Object where
  ref : Nat
  deriving DecidableEq, Repr

/-- `Napi::String::New(env, s)`: a fresh JavaScript string with contents `s`. -/
def String_New (_env : Env) (s : String) : Value := Value.string s

/-- `Napi::External<T>::New(env, data)`: a fresh external value wrapping `data`. -/
def External_New (_env : Env) (data : Nat) : Value := Value.external data

/-- The own property `key` of the object `r`. -/
def Env.ownProperty (env : Env) (r : Nat) (key : String) : Option Property :=
  (env.objects r).props.get key

/-- The heap with the object `r` replaced. -/
def Env.setObject (env : Env) (r : Nat) (obj : ObjectData) : Env :=
  { env with objects := fun r' => if r' = r then obj else env.objects r' }

/-- The last step of an ordinary property set, on the receiver: an own
writable data property takes the value, a missing property is created if the
receiver is extensible, and the write is dropped on a read-only or accessor
property and on a receiver that is not extensible. -/
def Env.storeOwn (env : Env) (receiver : Nat) (key : String) (value : Value) : Env :=
  match (env.objects receiver).props.get key with
  | some (Property.data _ true) =>
      env.setObject receiver
        { env.objects receiver with
          props := (env.objects receiver).props.set key (Property.data value true) }
  | some (Property.data _ false) => env
  | some (Property.accessor _) => env
  | none =>
      if (env.objects receiver).extensible then
        env.setObject receiver
          { env.objects receiver with
            props := (env.objects receiver).props.set key (Property.data value true) }
      else env

/-- The property set of JavaScript (`[[Set]]`, not throwing on a refused
write), started at the object `o` of the prototype chain of `receiver`.  An
exotic object runs its own set; an own data property decides the write
(stored on the receiver if writable, dropped if read-only); an own accessor
runs its setter, or drops the write if it has none; a missing property hands
over to the prototype, and at the end of the chain the value is stored on the
receiver.  The first argument bounds the length of the chain. -/
def Env.setProperty (host : Host) :
    Nat → Env → Nat → String → Value → Nat → Option (Env × Completion Unit)
  | 0, _, _, _, _, _ => none
  | fuel + 1, env, o, key, value, receiver =>
    if (env.objects o).exotic then some (host.exoticSet o key value receiver env)
    else
      match (env.objects o).props.get key with
      | some (Property.data _ true) => some (env.storeOwn receiver key value, Completion.normal ())
      | some (Property.data _ false) => some (env, Completion.normal ())
      | some (Property.accessor (some setter)) => some (host.call setter receiver value env)
      | some (Property.accessor none) => some (env, Completion.normal ())
      | none =>
        match (env.objects o).proto with
        | some parent => Env.setProperty host fuel env parent key value receiver
        | none => some (env.storeOwn receiver key value, Completion.normal ())

/-- `Napi::Object::Set(key, value)`, which is what the assignment
`obj[key] = value` performs: `napi_set_named_property`, a property set with
the object as receiver.  A refused write is not an error; an exception of the
JavaScript code that ran is thrown on as `Napi::Error`. -/
def Object.Set (o : Object) (host : Host) (env : Env) (key : String) (value : Value) :
    Option (Env × Completion Unit) :=
  Env.setProperty host (env.size + 1) env o.ref key value o.ref

/-- Whether a property set of `key` started at `o` is decided without
running JavaScript code: no exotic object and no setter is met before the
own or inherited property of that name, or the end of the chain. -/
def Env.decidedByData : Nat → Env → Nat → String → Bool
  | 0, _, _, _ => false
  | fuel + 1, env, o, key =>
    !(env.objects o).exotic &&
      match (env.objects o).props.get key with
      | some (Property.data _ _) => true
      | some (Property.accessor (some _)) => false
      | some (Property.accessor none) => true
      | none =>
        match (env.objects o).proto with
        | some parent => Env.decidedByData fuel env parent key
        | none => true

/-- Whether the prototype chain from `o` lets a write of `key` through: it
holds no exotic object, and the first property of that name on it, if any,
is a writable data property. -/
def Env.inheritsWritable : Nat → Env → Nat → String → Bool
  | 0, _, _, _ => false
  | fuel + 1, env, o, key =>
    !(env.objects o).exotic &&
      match (env.objects o).props.get key with
      | some (Property.data _ writable) => writable
      | some (Property.accessor _) => false
      | none =>
        match (env.objects o).proto with
        | some parent => Env.inheritsWritable fuel env parent key
        | none => true

/-- Whether an assignment to `key` on the object `o` stores the value: `o`
is an ordinary object and `key` is an own writable data property of it, or
`key` is not an own property, `o` is extensible and its prototype chain lets
the write through. -/
def Env.accepts (env : Env) (o : Nat) (key : String) : Bool :=
  !(env.objects o).exotic &&
    match (env.objects o).props.get key with
    | some (Property.data _ writable) => writable
    | some (Property.accessor _) => false
    | none =>
      (env.objects o).extensible &&
        match (env.objects o).proto with
        | some parent => Env.inheritsWritable env.size env parent key
        | none => true

/-- The heap after an assignment to `key` on `o` that runs no JavaScript
code: the value is stored on `o` if the chain lets the write through, and
nothing changes if it does not. -/
def Env.assign (env : Env) (o : Nat) (key : String) (value : Value) : Env :=
  if Env.inheritsWritable (env.size + 1) env o key = true then env.storeOwn o key value else env

end Napi

/-- The module initialiser of `binding.cc`.  `tree_sitter_sass` is the
`extern "C"` function of the generated parser; only its declaration is part
of the binding, so it is a parameter, and so is the JavaScript code of the
environment.  An exception thrown by one of the two assignments leaves
`Init` at once.  There is no result only when a prototype chain is longer
than the heap has objects, which a chain without cycle never is. -/
def Init (host : Napi.Host) (tree_sitter_sass : Unit → Nat) (env : Napi.Env)
    (exports : Napi.Object) : Option (Napi.Env × Napi.Completion Napi.Object) :=
  match exports.Set host env "name" (Napi.String_New env "sass") with
  | none => none
  | some (env, Napi.Completion.throw exception) => some (env, Napi.Completion.throw exception)
  | some (env, Napi.Completion.normal _) =>
    let language := Napi.External_New env (tree_sitter_sass ())
    match exports.Set host env "language" language with
    | none => none
    | some (env, Napi.Completion.throw exception) => some (env, Napi.Completion.throw exception)
    | some (env, Napi.Completion.normal _) => some (env, Napi.Completion.normal exports)

/-! # Sample heaps -/

/-- JavaScript code that changes nothing and throws nothing. -/
def quietHost : Napi.Host :=
  { call := fun _ _ _ env => (env, Napi.Completion.normal ()),
    exoticSet := fun _ _ _ _ env => (env, Napi.Completion.normal ()) }

/-- JavaScript code that throws the string `refused` from every setter and
from every exotic set. -/
def throwingHost : Napi.Host :=
  { call := fun _ _ _ env => (env, Napi.Completion.throw (Napi.Value.string "refused")),
    exoticSet := fun _ _ _ _ env => (env, Napi.Completion.throw (Napi.Value.string "refused")) }

/-- JavaScript code whose setters store `4` under `version` on the receiver. -/
def meddlingHost : Napi.Host :=
  { call := fun _ receiver _ env =>
      (env.storeOwn receiver "version" (Napi.Value.number 4), Napi.Completion.normal ()),
    exoticSet := fun _ _ _ _ env => (env, Napi.Completion.normal ()) }

/-- An ordinary extensible object with the given properties and prototype. -/
def ordinaryObject (props : Napi.Props) (proto : Option Nat) : Napi.ObjectData :=
  { props := props, extensible := true, proto := proto, exotic := false }

/-- A heap of eight objects: `exports` is object `7`, `prototype` is object
`1`, and the others are empty objects without prototype. -/
def heapWith (exports prototype : Napi.ObjectData) : Napi.Env :=
  { objects := fun r =>
      if r = 7 then exports else if r = 1 then prototype else ordinaryObject [] none,
    size := 8 }

/-- The handle of object `7`. -/
def sampleExports : Napi.Object := { ref := 7 }

/-- A prototype with one property, as `Object.prototype` has many. -/
def samplePrototype : Napi.ObjectData :=
  ordinaryObject [("constructor", Napi.Property.data (Napi.Value.object 2) true)] none

/-- A heap whose `exports` is an ordinary object that already has the
writable properties `name`, `version` and `language`. -/
def sampleEnv : Napi.Env :=
  heapWith
    (ordinaryObject
      [("name", Napi.Property.data (Napi.Value.string "css") true),
       ("version", Napi.Property.data (Napi.Value.number 3) true),
       ("language", Napi.Property.data Napi.Value.undefined true)] (some 1))
    samplePrototype

/-- A heap whose `exports` is the frozen object `{name: 'css', version: 3}`:
not extensible, every property read-only. -/
def frozenEnv : Napi.Env :=
  heapWith
    { props := [("name", Napi.Property.data (Napi.Value.string "css") false),
                ("version", Napi.Property.data (Napi.Value.number 3) false)],
      extensible := false, proto := some 1, exotic := false }
    samplePrototype

/-- A heap whose `exports` is `{name: 'css'}` made non-extensible. -/
def nonExtensibleEnv : Napi.Env :=
  heapWith
    { props := [("name", Napi.Property.data (Napi.Value.string "css") true)],
      extensible := false, proto := some 1, exotic := false }
    samplePrototype

/-- A heap whose `exports` has a read-only `name` and is extensible. -/
def readOnlyNameEnv : Napi.Env :=
  heapWith
    (ordinaryObject [("name", Napi.Property.data (Napi.Value.string "css") false)] (some 1))
    samplePrototype

/-- A heap whose `exports` is empty and inherits a read-only `name` from its
prototype. -/
def inheritedReadOnlyEnv : Napi.Env :=
  heapWith (ordinaryObject [] (some 1))
    (ordinaryObject [("name", Napi.Property.data (Napi.Value.string "css") false)] none)

/-- A heap whose `exports` has an accessor `name` with the setter `0`, and a
writable `version`. -/
def setterEnv : Napi.Env :=
  heapWith
    (ordinaryObject
      [("name", Napi.Property.accessor (some 0)),
       ("version", Napi.Property.data (Napi.Value.number 3) true)] (some 1))
    samplePrototype

/-- A heap whose `exports` is a proxy. -/
def proxyEnv : Napi.Env :=
  heapWith { props := [], extensible := true, proto := none, exotic := true } samplePrototype

/-!
# The incremental reparser: applying an edit to the old tree

The reparser is not part of the binding; the definitions of this section
follow the data model and the edit algorithm of the specification.  Byte
ranges are half-open, `[start_byte, end_byte)`; the range an edit replaces
is written `[start_byte, old_end_byte]` in the algorithm and is read as it is
written, both ends included.
-/

namespace Reparser

/-- Modelled from the spec: the `Edit` descriptor of the data model, the
triple `(start_byte, old_end_byte, new_end_byte)` of one replacement.  The
reparser that consumes it is absent from the sources. -/
structure Edit where
  start_byte : Nat
  old_end_byte : Nat
  new_end_byte : Nat
  deriving DecidableEq, Repr

/-- Modelled from the spec: a `Node` of the data model (symbol, byte range,
owned ordered children, named fields as a map from field name to child
index, `is_error`, `is_missing`) as the reparser sees it in the old tree,
that is together with the mark `invalidated` the edit algorithm sets.  The
tree structure itself is absent from the sources. -/
inductive Node where
  | mk (symbol : Nat) (start_byte end_byte : Nat) (children : List Node)
      (named_fields : List (String × Nat)) (is_error is_missing invalidated : Bool)
  deriving Repr

/-- Modelled from the spec: first byte of the node's `byte_range`. -/
def Node.start_byte : Node → Nat
  | .mk _ s _ _ _ _ _ _ => s

/-- Modelled from the spec: end (exclusive) of the node's `byte_range`. -/
def Node.end_byte : Node → Nat
  | .mk _ _ e _ _ _ _ _ => e

/-- Modelled from the spec: the ordered children of a node. -/
def Node.children : Node → List Node
  | .mk _ _ _ cs _ _ _ _ => cs

/-- Modelled from the spec: whether the node is marked as invalidated. -/
def Node.invalidated : Node → Bool
  | .mk _ _ _ _ _ _ _ inv => inv

/-- Modelled from the spec: a node "lying entirely after `old_end_byte`":
its range starts past that byte. -/
def Edit.liesAfter (e : Edit) (n : Node) : Bool :=
  decide (e.old_end_byte < n.start_byte)

/-- Modelled from the spec: a node "whose range overlaps
`[start_byte, old_end_byte]`": the half-open range of the node and the
closed range of the edit have a byte in common. -/
def Edit.overlaps (e : Edit) (n : Node) : Bool :=
  decide (n.start_byte ≤ e.old_end_byte) && decide (e.start_byte < n.end_byte)

/-- Modelled from the spec: a byte offset shifted by
`new_end_byte - old_end_byte`.  It is applied to offsets past
`old_end_byte` only, where the truncated subtraction is exact. -/
def Edit.shift (e : Edit) (b : Nat) : Nat :=
  b + e.new_end_byte - e.old_end_byte

mutual
/-- Modelled from the spec: one `Edit` applied to an old-tree node and,
below it, to its subtree.  The range of a node lying entirely after
`old_end_byte` is shifted; a node whose range overlaps the edit is marked,
and so is every node with a marked child, which marks all ancestors of an
invalidated node.  The reparser is absent from the sources. -/
def Node.applyEdit (e : Edit) : Node → Node
  | .mk sym s en cs nf ie im inv =>
    let cs' := applyEditAll e cs
    let after := decide (e.old_end_byte < s)
    let hit := decide (s ≤ e.old_end_byte) && decide (e.start_byte < en)
    .mk sym (if after then e.shift s else s) (if after then e.shift en else en) cs' nf ie im
      (inv || hit || cs'.any Node.invalidated)
/-- Modelled from the spec: the edit applied to each node of a child list. -/
def applyEditAll (e : Edit) : List Node → List Node
  | [] => []
  | c :: cs => c.applyEdit e :: applyEditAll e cs
end

mutual
/-- Modelled from the spec: the node reached from `n` by following child
indices (`child(node, index)` of the tree API, iterated); the empty path is
`n` itself, a non-empty path reaches a proper descendant. -/
def Node.descendant? : Node → List Nat → Option Node
  | n, [] => some n
  | .mk _ _ _ cs _ _ _ _, i :: p => descendantOf? cs i p
/-- Modelled from the spec: the descendant reached through child `i` of a
child list. -/
def descendantOf? : List Node → Nat → List Nat → Option Node
  | [], _, _ => none
  | c :: _, 0, p => c.descendant? p
  | _ :: cs, i + 1, p => descendantOf? cs i p
end

mutual
/-- Modelled from the spec: the reuse test of the reparser, "a node is
reusable only if it and every descendant are unmarked", as the walk over the
subtree that checks the marks. -/
def Node.reusable : Node → Bool
  | .mk _ _ _ cs _ _ _ inv => !inv && allReusable cs
/-- Modelled from the spec: the reuse test on each node of a child list. -/
def allReusable : List Node → Bool
  | [] => true
  | c :: cs => c.reusable && allReusable cs
end

mutual
/-- Modelled from the spec: the marks of a subtree are closed upwards, every
node with a marked child being marked itself.  A tree as the parser built it
carries no mark, and the edit algorithm marks the ancestors of every node it
marks, so the old tree has this shape whenever an edit is applied to it. -/
def Node.marksClosed : Node → Bool
  | .mk _ _ _ cs _ _ _ inv => (inv || !cs.any Node.invalidated) && allMarksClosed cs
/-- Modelled from the spec: upward closure of the marks in each node of a
child list. -/
def allMarksClosed : List Node → Bool
  | [] => true
  | c :: cs => c.marksClosed && allMarksClosed cs
end

/-- Modelled from the spec: the edits of one `reparse` call applied in
order to the old tree. -/
def Node.applyEdits (es : List Edit) (n : Node) : Node :=
  es.foldl (fun t e => t.applyEdit e) n

/-- Modelled from the spec: an old tree of the shape the specification
describes for the source `.a { color: red; }`: a stylesheet root holding one
rule, with a selector child and a block child that holds one declaration
(property and value) and the closing brace.  The grammar that numbers the
symbols is absent from the sources; the symbols are numbered here in order of
first appearance and the ranges are those of the text. -/
def exampleTree : Node :=
  .mk 0 0 18
    [.mk 1 0 18
      [.mk 2 0 2 [] [] false false false,
       .mk 3 3 18
         [.mk 4 5 16
           [.mk 5 5 10 [] [] false false false,
            .mk 6 12 15 [] [] false false false]
           [("property", 0), ("value", 1)] false false false,
          .mk 7 17 18 [] [] false false false]
         [] false false false]
      [("selector", 0), ("block", 1)] false false false]
    [] false false false

/-- Modelled from the spec: the edit that replaces the three bytes of `red`
in `.a { color: red; }` by the four bytes of `blue`. -/
def exampleEdit : Edit := { start_byte := 12, old_end_byte := 15, new_end_byte := 16 }

end Reparser

/-!
# The source texts of the worked examples
-/

/-- Modelled from the spec: the input of the missing-value example. -/
def missingValueSource : String := ".a { color: }"

/-- Modelled from the spec: the input of the reuse example. -/
def reuseSource : String := ".a { color: red; }"

/-- The bytes `[start_byte, end_byte)` of the UTF-8 encoding of a source. -/
def byteSlice (source : String) (start_byte end_byte : Nat) : List UInt8 :=
  (source.toUTF8.data.toList.drop start_byte).take (end_byte - start_byte)

/-! ## Property lists -/

namespace Napi

theorem Props.get_set_same (ps : Props) (key : String) (p : Property) :
    (ps.set key p).get key = some p := by
  induction ps with
  | nil => simp [Props.set, Props.get]
  | cons q rest ih =>
    obtain ⟨k, v⟩ := q
    by_cases h : k = key
    · simp [Props.set, Props.get, h]
    · simp [Props.set, Props.get, h, ih]

theorem Props.get_set_other (ps : Props) (key key' : String) (p : Property)
    (hne : key' ≠ key) : (ps.set key p).get key' = ps.get key' := by
  induction ps with
  | nil =>
    have : ¬ key = key' := fun h => hne h.symm
    simp [Props.set, Props.get, this]
  | cons q rest ih =>
    obtain ⟨k, v⟩ := q
    by_cases h : k = key
    · subst h
      have : ¬ k = key' := fun h => hne h.symm
      simp [Props.set, Props.get, this]
    · by_cases h' : k = key'
      · subst h'
        simp [Props.set, Props.get, h]
      · simp [Props.set, Props.get, h, h', ih]

theorem Props.mem_keys_set (ps : Props) (key key' : String) (p : Property) :
    key' ∈ (ps.set key p).keys ↔ key' ∈ ps.keys ∨ key' = key := by
  induction ps with
  | nil => simp [Props.set, Props.keys]
  | cons q rest ih =>
    obtain ⟨k, v⟩ := q
    by_cases h : k = key
    · subst h
      simp [Props.set, Props.keys]
      tauto
    · simp only [Props.keys] at ih
      simp [Props.set, Props.keys, h, ih]
      tauto

/-! ## The last step of a property set -/

/-- What a store on the receiver leaves alone: the size of the heap, every
other object, the extensibility, prototype and kind of every object, every
property of another name, and the set of property names but for `key`. -/
theorem Env.storeOwn_frame (env : Env) (receiver : Nat) (key : String) (value : Value) :
    (env.storeOwn receiver key value).size = env.size ∧
    (∀ r : Nat, r ≠ receiver → (env.storeOwn receiver key value).objects r = env.objects r) ∧
    (∀ r : Nat, ((env.storeOwn receiver key value).objects r).extensible
        = (env.objects r).extensible ∧
      ((env.storeOwn receiver key value).objects r).proto = (env.objects r).proto ∧
      ((env.storeOwn receiver key value).objects r).exotic = (env.objects r).exotic) ∧
    (∀ (r : Nat) (key' : String), key' ≠ key →
      (env.storeOwn receiver key value).ownProperty r key' = env.ownProperty r key') ∧
    (∀ k : String, k ∈ Props.keys ((env.storeOwn receiver key value).objects receiver).props →
      k ∈ Props.keys (env.objects receiver).props ∨ k = key) := by
  unfold Env.storeOwn
  split
  · refine ⟨rfl, ?_, ?_, ?_, ?_⟩
    · intro r hr; simp [Env.setObject, hr]
    · intro r
      by_cases hr : r = receiver
      · subst hr; simp [Env.setObject]
      · simp [Env.setObject, hr]
    · intro r key' hne
      by_cases hr : r = receiver
      · subst hr; simp [Env.ownProperty, Env.setObject, Props.get_set_other _ _ _ _ hne]
      · simp [Env.ownProperty, Env.setObject, hr]
    · intro k hk
      simp only [Env.setObject, if_true] at hk
      exact (Props.mem_keys_set _ _ _ _).mp hk
  · exact ⟨rfl, fun _ _ => rfl, fun _ => ⟨rfl, rfl, rfl⟩, fun _ _ _ => rfl, fun _ h => Or.inl h⟩
  · exact ⟨rfl, fun _ _ => rfl, fun _ => ⟨rfl, rfl, rfl⟩, fun _ _ _ => rfl, fun _ h => Or.inl h⟩
  · split
    · refine ⟨rfl, ?_, ?_, ?_, ?_⟩
      · intro r hr; simp [Env.setObject, hr]
      · intro r
        by_cases hr : r = receiver
        · subst hr; simp [Env.setObject]
        · simp [Env.setObject, hr]
      · intro r key' hne
        by_cases hr : r = receiver
        · subst hr; simp [Env.ownProperty, Env.setObject, Props.get_set_other _ _ _ _ hne]
        · simp [Env.ownProperty, Env.setObject, hr]
      · intro k hk
        simp only [Env.setObject, if_true] at hk
        exact (Props.mem_keys_set _ _ _ _).mp hk
    · exact ⟨rfl, fun _ _ => rfl, fun _ => ⟨rfl, rfl, rfl⟩, fun _ _ _ => rfl,
        fun _ h => Or.inl h⟩

/-- A store on a writable own data property replaces its value. -/
theorem Env.storeOwn_writable (env : Env) (receiver : Nat) (key : String) (value old : Value)
    (h : env.ownProperty receiver key = some (Property.data old true)) :
    (env.storeOwn receiver key value).ownProperty receiver key
      = some (Property.data value true) := by
  unfold Env.ownProperty at h
  simp [Env.storeOwn, h, Env.ownProperty, Env.setObject, Props.get_set_same]

/-- A store of a missing property on an extensible receiver creates it. -/
theorem Env.storeOwn_absent (env : Env) (receiver : Nat) (key : String) (value : Value)
    (h : env.ownProperty receiver key = none) (hext : (env.objects receiver).extensible = true) :
    (env.storeOwn receiver key value).ownProperty receiver key
      = some (Property.data value true) := by
  unfold Env.ownProperty at h
  simp [Env.storeOwn, h, hext, Env.ownProperty, Env.setObject, Props.get_set_same]

/-- A store on a read-only own data property changes nothing. -/
theorem Env.storeOwn_readOnly (env : Env) (receiver : Nat) (key : String) (value old : Value)
    (h : env.ownProperty receiver key = some (Property.data old false)) :
    env.storeOwn receiver key value = env := by
  unfold Env.ownProperty at h
  simp [Env.storeOwn, h]

end Napi

/-! ## Property sets that run no JavaScript code -/

namespace Napi

/-- A property set decided by data properties alone ends normally, and it
stores the value on the receiver exactly when the chain lets the write
through. -/
theorem Env.setProperty_decided (host : Host) (key : String) (value : Value) (receiver : Nat)
    (fuel : Nat) (env : Env) (o : Nat) (h : Env.decidedByData fuel env o key = true) :
    Env.setProperty host fuel env o key value receiver
      = some (if Env.inheritsWritable fuel env o key = true
          then env.storeOwn receiver key value else env, Completion.normal ()) := by
  induction fuel generalizing o with
  | zero => simp [Env.decidedByData] at h
  | succ fuel ih =>
    simp only [Env.decidedByData, Bool.and_eq_true, Bool.not_eq_true'] at h
    obtain ⟨hex, hrest⟩ := h
    simp only [Env.setProperty, Env.inheritsWritable, hex]
    cases hp : (env.objects o).props.get key with
    | none =>
      rw [hp] at hrest
      cases hproto : (env.objects o).proto with
      | none => simp
      | some parent =>
        rw [hproto] at hrest
        simpa using ih parent hrest
    | some p =>
      rw [hp] at hrest
      cases p with
      | data v w => cases w <;> simp
      | accessor s =>
        cases s with
        | none => simp
        | some f => simp at hrest

/-- Heaps that agree on the kind and prototype of every object and on the
property `key` of every object decide a set of `key` alike. -/
theorem Env.decidedByData_congr (key : String) (env env' : Env)
    (hobj : ∀ r : Nat, (env'.objects r).exotic = (env.objects r).exotic ∧
      (env'.objects r).proto = (env.objects r).proto ∧
      env'.ownProperty r key = env.ownProperty r key)
    (fuel : Nat) (o : Nat) :
    Env.decidedByData fuel env' o key = Env.decidedByData fuel env o key := by
  induction fuel generalizing o with
  | zero => rfl
  | succ fuel ih =>
    obtain ⟨h1, h2, h3⟩ := hobj o
    unfold Env.ownProperty at h3
    simp only [Env.decidedByData, h1, h2, h3]
    cases (env.objects o).props.get key with
    | none =>
      cases (env.objects o).proto with
      | none => rfl
      | some parent => simp [ih parent]
    | some p => cases p with
      | data v w => rfl
      | accessor s => cases s <;> rfl

/-- Heaps that agree on the kind and prototype of every object and on the
property `key` of every object let a write of `key` through alike. -/
theorem Env.inheritsWritable_congr (key : String) (env env' : Env)
    (hobj : ∀ r : Nat, (env'.objects r).exotic = (env.objects r).exotic ∧
      (env'.objects r).proto = (env.objects r).proto ∧
      env'.ownProperty r key = env.ownProperty r key)
    (fuel : Nat) (o : Nat) :
    Env.inheritsWritable fuel env' o key = Env.inheritsWritable fuel env o key := by
  induction fuel generalizing o with
  | zero => rfl
  | succ fuel ih =>
    obtain ⟨h1, h2, h3⟩ := hobj o
    unfold Env.ownProperty at h3
    simp only [Env.inheritsWritable, h1, h2, h3]
    cases (env.objects o).props.get key with
    | none =>
      cases (env.objects o).proto with
      | none => rfl
      | some parent => simp [ih parent]
    | some p => cases p with
      | data v w => rfl
      | accessor s => cases s <;> rfl

/-- An object that accepts a write of `key` lets it through. -/
theorem Env.inheritsWritable_of_accepts (env : Env) (o : Nat) (key : String)
    (h : env.accepts o key = true) : Env.inheritsWritable (env.size + 1) env o key = true := by
  simp only [Env.accepts, Bool.and_eq_true, Bool.not_eq_true'] at h
  obtain ⟨hex, hrest⟩ := h
  simp only [Env.inheritsWritable, hex]
  cases hp : (env.objects o).props.get key with
  | none =>
    rw [hp] at hrest
    simp only [Bool.and_eq_true] at hrest
    simpa using hrest.2
  | some p =>
    rw [hp] at hrest
    cases p with
    | data v w => simpa using hrest
    | accessor s => simp at hrest

/-- A chain that lets a write through is walked without running JavaScript
code. -/
theorem Env.decidedByData_of_inheritsWritable (key : String) (env : Env) (fuel : Nat) (o : Nat)
    (h : Env.inheritsWritable fuel env o key = true) :
    Env.decidedByData fuel env o key = true := by
  induction fuel generalizing o with
  | zero => simp [Env.inheritsWritable] at h
  | succ fuel ih =>
    simp only [Env.inheritsWritable, Bool.and_eq_true, Bool.not_eq_true'] at h
    obtain ⟨hex, hrest⟩ := h
    simp only [Env.decidedByData, hex]
    cases hp : (env.objects o).props.get key with
    | none =>
      rw [hp] at hrest
      cases hproto : (env.objects o).proto with
      | none => simp
      | some parent =>
        rw [hproto] at hrest
        simpa using ih parent hrest
    | some p =>
      rw [hp] at hrest
      cases p with
      | data v w => simp
      | accessor s => simp at hrest

/-- On an object that accepts the write, the store puts the value in place. -/
theorem Env.storeOwn_of_accepts (env : Env) (o : Nat) (key : String) (value : Value)
    (h : env.accepts o key = true) :
    (env.storeOwn o key value).ownProperty o key = some (Property.data value true) := by
  simp only [Env.accepts, Bool.and_eq_true, Bool.not_eq_true'] at h
  obtain ⟨_, hrest⟩ := h
  cases hp : (env.objects o).props.get key with
  | none =>
    rw [hp] at hrest
    simp only [Bool.and_eq_true] at hrest
    exact Env.storeOwn_absent env o key value hp hrest.1
  | some p =>
    rw [hp] at hrest
    cases p with
    | data v w =>
      have hw : w = true := by simpa using hrest
      subst hw
      exact Env.storeOwn_writable env o key value v hp
    | accessor s => simp at hrest

end Napi

namespace Napi

/-- An assignment decided by data properties alone ends normally in the heap
`Env.assign` describes. -/
theorem Object.Set_decided (o : Object) (host : Host) (env : Env) (key : String)
    (value : Value) (h : Env.decidedByData (env.size + 1) env o.ref key = true) :
    o.Set host env key value = some (env.assign o.ref key value, Completion.normal ()) := by
  unfold Object.Set Env.assign
  exact Env.setProperty_decided host key value o.ref (env.size + 1) env o.ref h

/-- What an assignment that runs no JavaScript code leaves alone. -/
theorem Env.assign_frame (env : Env) (o : Nat) (key : String) (value : Value) :
    (env.assign o key value).size = env.size ∧
    (∀ r : Nat, r ≠ o → (env.assign o key value).objects r = env.objects r) ∧
    (∀ r : Nat, ((env.assign o key value).objects r).extensible = (env.objects r).extensible ∧
      ((env.assign o key value).objects r).proto = (env.objects r).proto ∧
      ((env.assign o key value).objects r).exotic = (env.objects r).exotic) ∧
    (∀ (r : Nat) (key' : String), key' ≠ key →
      (env.assign o key value).ownProperty r key' = env.ownProperty r key') ∧
    (∀ k : String, k ∈ Props.keys ((env.assign o key value).objects o).props →
      k ∈ Props.keys (env.objects o).props ∨ k = key) := by
  unfold Env.assign
  split
  · exact Env.storeOwn_frame env o key value
  · exact ⟨rfl, fun _ _ => rfl, fun _ => ⟨rfl, rfl, rfl⟩, fun _ _ _ => rfl, fun _ h => Or.inl h⟩

/-- An assignment to one key does not change how a set of another key is
decided. -/
theorem Env.decidedByData_assign (env : Env) (o : Nat) (key key' : String) (value : Value)
    (hne : key' ≠ key) (fuel : Nat) (o' : Nat) :
    Env.decidedByData fuel (env.assign o key value) o' key'
      = Env.decidedByData fuel env o' key' := by
  obtain ⟨_, _, hattr, hget, _⟩ := Env.assign_frame env o key value
  exact Env.decidedByData_congr key' env _
    (fun r => ⟨(hattr r).2.2, (hattr r).2.1, hget r key' hne⟩) fuel o'

/-- An assignment to one key does not change whether the chain lets a write
of another key through. -/
theorem Env.inheritsWritable_assign (env : Env) (o : Nat) (key key' : String) (value : Value)
    (hne : key' ≠ key) (fuel : Nat) (o' : Nat) :
    Env.inheritsWritable fuel (env.assign o key value) o' key'
      = Env.inheritsWritable fuel env o' key' := by
  obtain ⟨_, _, hattr, hget, _⟩ := Env.assign_frame env o key value
  exact Env.inheritsWritable_congr key' env _
    (fun r => ⟨(hattr r).2.2, (hattr r).2.1, hget r key' hne⟩) fuel o'

/-- An assignment to one key does not change whether an object accepts a
write of another key. -/
theorem Env.accepts_assign (env : Env) (o : Nat) (key key' : String) (value : Value)
    (hne : key' ≠ key) (o' : Nat) :
    (env.assign o key value).accepts o' key' = env.accepts o' key' := by
  obtain ⟨hsize, _, hattr, hget, _⟩ := Env.assign_frame env o key value
  have hg := hget o' key' hne
  unfold Env.ownProperty at hg
  simp only [Env.accepts, hsize, (hattr o').1, (hattr o').2.1, (hattr o').2.2, hg,
    Env.inheritsWritable_assign env o key key' value hne]

/-- On an object that accepts the write, the assignment puts the value in
place. -/
theorem Env.assign_of_accepts (env : Env) (o : Nat) (key : String) (value : Value)
    (h : env.accepts o key = true) :
    (env.assign o key value).ownProperty o key = some (Property.data value true) := by
  unfold Env.assign
  rw [if_pos (Env.inheritsWritable_of_accepts env o key h)]
  exact Env.storeOwn_of_accepts env o key value h

/-- An object that accepts a write decides it without JavaScript code. -/
theorem Env.decidedByData_of_accepts (env : Env) (o : Nat) (key : String)
    (h : env.accepts o key = true) : Env.decidedByData (env.size + 1) env o key = true :=
  Env.decidedByData_of_inheritsWritable key env _ o (Env.inheritsWritable_of_accepts env o key h)

/-- An own data property decides the assignment by its `writable`
attribute: the value is replaced if it is set, and kept if it is not. -/
theorem Env.assign_ownData (env : Env) (o : Nat) (key : String) (value old : Value)
    (writable : Bool) (hex : (env.objects o).exotic = false)
    (h : env.ownProperty o key = some (Property.data old writable)) :
    (env.assign o key value).ownProperty o key
      = some (Property.data (if writable = true then value else old) writable) := by
  have hp : (env.objects o).props.get key = some (Property.data old writable) := h
  cases writable with
  | true =>
    have hw : Env.inheritsWritable (env.size + 1) env o key = true := by
      simp [Env.inheritsWritable, hex, hp]
    unfold Env.assign
    rw [if_pos hw]
    simpa using Env.storeOwn_writable env o key value old h
  | false =>
    have hw : ¬ Env.inheritsWritable (env.size + 1) env o key = true := by
      simp [Env.inheritsWritable, hex, hp]
    unfold Env.assign
    rw [if_neg hw]
    simpa using h

end Napi

/-! ## What `Init` does -/

/-- When neither assignment runs JavaScript code, `Init` returns `exports`
after the two assignments. -/
theorem Init_decided (host : Napi.Host) (tree_sitter_sass : Unit → Nat) (env : Napi.Env)
    (exports : Napi.Object)
    (hname : Napi.Env.decidedByData (env.size + 1) env exports.ref "name" = true)
    (hlanguage : Napi.Env.decidedByData (env.size + 1) env exports.ref "language" = true) :
    Init host tree_sitter_sass env exports
      = some ((env.assign exports.ref "name" (Napi.Value.string "sass")).assign exports.ref
          "language" (Napi.Value.external (tree_sitter_sass ())),
        Napi.Completion.normal exports) := by
  have h1 := Napi.Object.Set_decided exports host env "name" (Napi.Value.string "sass") hname
  have hsize := (Napi.Env.assign_frame env exports.ref "name" (Napi.Value.string "sass")).1
  have h2 := Napi.Object.Set_decided exports host
    (env.assign exports.ref "name" (Napi.Value.string "sass")) "language"
    (Napi.Value.external (tree_sitter_sass ()))
    (by rw [hsize, Napi.Env.decidedByData_assign _ _ _ _ _ (by decide)]; exact hlanguage)
  simp only [Init, Napi.String_New, Napi.External_New, h1, h2]

/-- C9: on every `exports` object that accepts a write of `name` and of
`language` (an ordinary object on which the name is an own writable data
property, or is missing while the object is extensible and its prototype
chain lets the write through), `Init` returns the handle it was given, and
afterwards the own property `name` of that object is the string `sass` and
the own property `language` is an external value wrapping the pointer
`tree_sitter_sass()` returned. -/
theorem Init_returns_exports_with_name_and_language (host : Napi.Host)
    (tree_sitter_sass : Unit → Nat) (env : Napi.Env) (exports : Napi.Object)
    (hname : env.accepts exports.ref "name" = true)
    (hlanguage : env.accepts exports.ref "language" = true) :
    ∃ env' : Napi.Env,
      Init host tree_sitter_sass env exports = some (env', Napi.Completion.normal exports) ∧
      env'.ownProperty exports.ref "name"
        = some (Napi.Property.data (Napi.Value.string "sass") true) ∧
      env'.ownProperty exports.ref "language"
        = some (Napi.Property.data (Napi.Value.external (tree_sitter_sass ())) true) := by
  refine ⟨_, Init_decided host tree_sitter_sass env exports
    (Napi.Env.decidedByData_of_accepts env _ _ hname)
    (Napi.Env.decidedByData_of_accepts env _ _ hlanguage), ?_, ?_⟩
  · rw [(Napi.Env.assign_frame _ exports.ref "language" _).2.2.2.1 exports.ref "name"
      (by decide)]
    exact Napi.Env.assign_of_accepts env exports.ref "name" _ hname
  · apply Napi.Env.assign_of_accepts
    rw [Napi.Env.accepts_assign _ _ _ _ _ (by decide)]
    exact hlanguage

/-- On the sample heap, whose `exports` already has `name` and `language`,
`Init` returns `exports` with both replaced. -/
theorem Init_returns_exports_with_name_and_language_witness :
    sampleEnv.accepts sampleExports.ref "name" = true ∧
    sampleEnv.accepts sampleExports.ref "language" = true ∧
    ∃ env' : Napi.Env,
      Init quietHost (fun _ => 4096) sampleEnv sampleExports
        = some (env', Napi.Completion.normal sampleExports) ∧
      env'.ownProperty sampleExports.ref "name"
        = some (Napi.Property.data (Napi.Value.string "sass") true) ∧
      env'.ownProperty sampleExports.ref "language"
        = some (Napi.Property.data (Napi.Value.external 4096) true) :=
  ⟨by decide, by decide,
   Init_returns_exports_with_name_and_language quietHost (fun _ => 4096) sampleEnv sampleExports
     (by decide) (by decide)⟩

/-- On a frozen `exports` object `Init` returns normally and has written
nothing: `name` still holds `css` and there is no `language`. -/
theorem Init_frozen_exports_unchanged :
    (Init quietHost (fun _ => 4096) frozenEnv sampleExports).map
        (fun r => (r.2, r.1.ownProperty 7 "name", r.1.ownProperty 7 "language"))
      = some (Napi.Completion.normal sampleExports,
          some (Napi.Property.data (Napi.Value.string "css") false), none) := by
  decide

/-- C10: when neither assignment runs JavaScript code (no proxy and no
setter is met before the own or inherited property that decides the write),
`Init` returns `exports` and changes only its own properties `name` and
`language`: every other property of `exports` is the same afterwards, no
other property name is added, the extensibility, prototype and kind of
`exports` are unchanged, and so is every other object.  A previous value of
`name` or `language` held in an own data property is overwritten if that
property is writable and kept if it is read-only. -/
theorem Init_writes_only_name_and_language (host : Napi.Host)
    (tree_sitter_sass : Unit → Nat) (env : Napi.Env) (exports : Napi.Object)
    (hname : Napi.Env.decidedByData (env.size + 1) env exports.ref "name" = true)
    (hlanguage : Napi.Env.decidedByData (env.size + 1) env exports.ref "language" = true) :
    ∃ env' : Napi.Env,
      Init host tree_sitter_sass env exports = some (env', Napi.Completion.normal exports) ∧
      (∀ key : String, key ≠ "name" → key ≠ "language" →
        env'.ownProperty exports.ref key = env.ownProperty exports.ref key) ∧
      (∀ key : String, key ∈ Napi.Props.keys (env'.objects exports.ref).props →
        key ∈ Napi.Props.keys (env.objects exports.ref).props
          ∨ key = "name" ∨ key = "language") ∧
      ((env'.objects exports.ref).extensible = (env.objects exports.ref).extensible ∧
        (env'.objects exports.ref).proto = (env.objects exports.ref).proto ∧
        (env'.objects exports.ref).exotic = (env.objects exports.ref).exotic) ∧
      (∀ r : Nat, r ≠ exports.ref → env'.objects r = env.objects r) ∧
      (∀ (old : Napi.Value) (writable : Bool),
        env.ownProperty exports.ref "name" = some (Napi.Property.data old writable) →
        env'.ownProperty exports.ref "name"
          = some (Napi.Property.data
              (if writable = true then Napi.Value.string "sass" else old) writable)) ∧
      (∀ (old : Napi.Value) (writable : Bool),
        env.ownProperty exports.ref "language" = some (Napi.Property.data old writable) →
        env'.ownProperty exports.ref "language"
          = some (Napi.Property.data
              (if writable = true then Napi.Value.external (tree_sitter_sass ()) else old)
              writable)) := by
  have hex : (env.objects exports.ref).exotic = false := by
    simp only [Napi.Env.decidedByData, Bool.and_eq_true, Bool.not_eq_true'] at hname
    exact hname.1
  obtain ⟨_, hother1, hattr1, hget1, hkeys1⟩ :=
    Napi.Env.assign_frame env exports.ref "name" (Napi.Value.string "sass")
  obtain ⟨_, hother2, hattr2, hget2, hkeys2⟩ :=
    Napi.Env.assign_frame (env.assign exports.ref "name" (Napi.Value.string "sass"))
      exports.ref "language" (Napi.Value.external (tree_sitter_sass ()))
  refine ⟨_, Init_decided host tree_sitter_sass env exports hname hlanguage,
    ?_, ?_, ?_, ?_, ?_, ?_⟩
  · intro key h1 h2
    rw [hget2 _ key h2, hget1 _ key h1]
  · intro key hkey
    rcases hkeys2 key hkey with h | h
    · rcases hkeys1 key h with h' | h'
      · exact Or.inl h'
      · exact Or.inr (Or.inl h')
    · exact Or.inr (Or.inr h)
  · exact ⟨(hattr2 _).1.trans (hattr1 _).1, (hattr2 _).2.1.trans (hattr1 _).2.1,
      (hattr2 _).2.2.trans (hattr1 _).2.2⟩
  · intro r hr
    rw [hother2 r hr, hother1 r hr]
  · intro old writable hold
    rw [hget2 _ "name" (by decide)]
    exact Napi.Env.assign_ownData env exports.ref "name" _ old writable hex hold
  · intro old writable hold
    apply Napi.Env.assign_ownData
    · rw [(hattr1 _).2.2]; exact hex
    · rw [hget1 _ "language" (by decide)]; exact hold

/-- On the sample heap `Init` keeps `version`, adds no property name, and
replaces the previous values of `name` and `language`. -/
theorem Init_writes_only_name_and_language_witness :
    Napi.Env.decidedByData (sampleEnv.size + 1) sampleEnv sampleExports.ref "name" = true ∧
    Napi.Env.decidedByData (sampleEnv.size + 1) sampleEnv sampleExports.ref "language" = true ∧
    ∃ env' : Napi.Env,
      Init quietHost (fun _ => 4096) sampleEnv sampleExports
        = some (env', Napi.Completion.normal sampleExports) ∧
      env'.ownProperty sampleExports.ref "version"
        = some (Napi.Property.data (Napi.Value.number 3) true) ∧
      env'.ownProperty sampleExports.ref "name"
        = some (Napi.Property.data (Napi.Value.string "sass") true) ∧
      env'.ownProperty sampleExports.ref "language"
        = some (Napi.Property.data (Napi.Value.external 4096) true) := by
  refine ⟨by decide, by decide, ?_⟩
  obtain ⟨env', hinit, hkeep, _, _, _, hname, hlanguage⟩ :=
    Init_writes_only_name_and_language quietHost (fun _ => 4096) sampleEnv sampleExports
      (by decide) (by decide)
  exact ⟨env', hinit, (hkeep "version" (by decide) (by decide)).trans (by decide),
    hname (Napi.Value.string "css") true (by decide),
    hlanguage Napi.Value.undefined true (by decide)⟩

/-- On an `exports` object whose `name` is read-only, `Init` returns
normally, the previous value `css` of `name` is still there, and `language`
has been added. -/
theorem Init_readOnly_name_not_overwritten :
    (Init quietHost (fun _ => 4096) readOnlyNameEnv sampleExports).map
        (fun r => (r.2, r.1.ownProperty 7 "name", r.1.ownProperty 7 "language"))
      = some (Napi.Completion.normal sampleExports,
          some (Napi.Property.data (Napi.Value.string "css") false),
          some (Napi.Property.data (Napi.Value.external 4096) true)) := by
  decide

/-- On a non-extensible `exports` object with a writable `name`, `Init`
replaces `name` and does not add `language`. -/
theorem Init_nonExtensible_exports :
    (Init quietHost (fun _ => 4096) nonExtensibleEnv sampleExports).map
        (fun r => (r.2, r.1.ownProperty 7 "name", r.1.ownProperty 7 "language"))
      = some (Napi.Completion.normal sampleExports,
          some (Napi.Property.data (Napi.Value.string "sass") true), none) := by
  decide

/-- On an `exports` object that inherits a read-only `name`, `Init` writes
`language` only. -/
theorem Init_inherited_readOnly_name :
    (Init quietHost (fun _ => 4096) inheritedReadOnlyEnv sampleExports).map
        (fun r => (r.2, r.1.ownProperty 7 "name", r.1.ownProperty 7 "language"))
      = some (Napi.Completion.normal sampleExports, none,
          some (Napi.Property.data (Napi.Value.external 4096) true)) := by
  decide

/-- When the setter of `name` throws, `Init` ends by that exception and
`language` is not written. -/
theorem Init_throwing_setter :
    (Init throwingHost (fun _ => 4096) setterEnv sampleExports).map
        (fun r => (r.2, r.1.ownProperty 7 "language"))
      = some (Napi.Completion.throw (Napi.Value.string "refused"), none) := by
  decide

/-- When the setter of `name` returns, the accessor stays in place and
`language` is written. -/
theorem Init_quiet_setter :
    (Init quietHost (fun _ => 4096) setterEnv sampleExports).map
        (fun r => (r.2, r.1.ownProperty 7 "name", r.1.ownProperty 7 "language"))
      = some (Napi.Completion.normal sampleExports, some (Napi.Property.accessor (some 0)),
          some (Napi.Property.data (Napi.Value.external 4096) true)) := by
  decide

/-- When the setter of `name` writes another property, that property has
changed after `Init`. -/
theorem Init_meddling_setter :
    (Init meddlingHost (fun _ => 4096) setterEnv sampleExports).map
        (fun r => (r.2, r.1.ownProperty 7 "version"))
      = some (Napi.Completion.normal sampleExports,
          some (Napi.Property.data (Napi.Value.number 4) true)) := by
  decide

/-- On a proxy both assignments are handed to the proxy: with traps that
store nothing, nothing is written. -/
theorem Init_proxy_exports :
    (Init quietHost (fun _ => 4096) proxyEnv sampleExports).map
        (fun r => (r.2, r.1.ownProperty 7 "name", r.1.ownProperty 7 "language"))
      = some (Napi.Completion.normal sampleExports, none, none) := by
  decide

/-! ## The edit algorithm of the reparser -/

namespace Reparser

theorem applyEditAll_eq_map (e : Edit) (cs : List Node) :
    applyEditAll e cs = cs.map (Node.applyEdit e) := by
  induction cs with
  | nil => simp [applyEditAll]
  | cons c cs ih => simp [applyEditAll, ih]

theorem descendantOf?_eq (cs : List Node) (i : Nat) (p : List Nat) :
    descendantOf? cs i p = (cs[i]?).bind (fun c => c.descendant? p) := by
  induction cs generalizing i with
  | nil => simp [descendantOf?]
  | cons c cs ih =>
    cases i with
    | zero => simp [descendantOf?]
    | succ i => simp [descendantOf?, ih]

theorem allReusable_eq (cs : List Node) : allReusable cs = cs.all Node.reusable := by
  induction cs with
  | nil => simp [allReusable]
  | cons c cs ih => simp [allReusable, ih]

theorem allMarksClosed_eq (cs : List Node) : allMarksClosed cs = cs.all Node.marksClosed := by
  induction cs with
  | nil => simp [allMarksClosed]
  | cons c cs ih => simp [allMarksClosed, ih]

theorem Node.descendant?_nil (n : Node) : n.descendant? [] = some n := by
  cases n; simp [Node.descendant?]

theorem Node.descendant?_cons (sym s en : Nat) (cs : List Node) (nf : List (String × Nat))
    (ie im inv : Bool) (i : Nat) (p : List Nat) :
    (Node.mk sym s en cs nf ie im inv).descendant? (i :: p)
      = (cs[i]?).bind (fun c => c.descendant? p) := by
  simp [Node.descendant?, descendantOf?_eq]

theorem Node.applyEdit_mk (e : Edit) (sym s en : Nat) (cs : List Node)
    (nf : List (String × Nat)) (ie im inv : Bool) :
    (Node.mk sym s en cs nf ie im inv).applyEdit e
      = Node.mk sym (if e.old_end_byte < s then e.shift s else s)
          (if e.old_end_byte < s then e.shift en else en) (cs.map (Node.applyEdit e)) nf ie im
          (inv || (decide (s ≤ e.old_end_byte) && decide (e.start_byte < en))
            || (cs.map (Node.applyEdit e)).any Node.invalidated) := by
  simp [Node.applyEdit, applyEditAll_eq_map]

/-- The edit algorithm keeps the shape of the tree: the node at a path of
the edited tree is the edited node of that path. -/
theorem Node.descendant?_applyEdit (e : Edit) (t : Node) (p : List Nat) :
    (t.applyEdit e).descendant? p = (t.descendant? p).map (Node.applyEdit e) := by
  induction p generalizing t with
  | nil => simp [Node.descendant?_nil]
  | cons i p ih =>
    obtain ⟨sym, s, en, cs, nf, ie, im, inv⟩ := t
    rw [Node.applyEdit_mk, Node.descendant?_cons, Node.descendant?_cons]
    rw [List.getElem?_map]
    cases h : cs[i]? with
    | none => simp
    | some c => simp [ih c]


theorem Node.invalidated_applyEdit_mk (e : Edit) (sym s en : Nat) (cs : List Node)
    (nf : List (String × Nat)) (ie im inv : Bool) :
    ((Node.mk sym s en cs nf ie im inv).applyEdit e).invalidated
      = (inv || e.overlaps (Node.mk sym s en cs nf ie im inv)
          || cs.any (fun c => (c.applyEdit e).invalidated)) := by
  rw [Node.applyEdit_mk]
  simp [Node.invalidated, Edit.overlaps, Node.start_byte, Node.end_byte, List.any_map]
  rfl

/-- A subtree of a tree with upward-closed marks has upward-closed marks. -/
theorem Node.marksClosed_descendant (t : Node) (p : List Nat) (n : Node)
    (hc : t.marksClosed = true) (hn : t.descendant? p = some n) : n.marksClosed = true := by
  induction p generalizing t with
  | nil =>
    rw [Node.descendant?_nil] at hn
    cases hn
    exact hc
  | cons i p ih =>
    obtain ⟨sym, s, en, cs, nf, ie, im, inv⟩ := t
    rw [Node.descendant?_cons] at hn
    cases h : cs[i]? with
    | none => simp [h] at hn
    | some c =>
      simp [h] at hn
      have hmem : c ∈ cs := List.getElem?_mem h
      simp only [Node.marksClosed, allMarksClosed_eq, Bool.and_eq_true, List.all_eq_true] at hc
      exact ih c (hc.2 c hmem) hn

/-- A node whose subtree holds a node overlapping the edit is marked by the
edit: the node itself (empty path) and all its ancestors. -/
theorem Node.invalidated_of_overlapping_descendant (e : Edit) (n : Node) (q : List Nat)
    (d : Node) (hd : n.descendant? q = some d) (ho : e.overlaps d = true) :
    (n.applyEdit e).invalidated = true := by
  induction q generalizing n with
  | nil =>
    rw [Node.descendant?_nil] at hd
    have hnd : n = d := by simpa using hd
    subst hnd
    obtain ⟨sym, s, en, cs, nf, ie, im, inv⟩ := n
    rw [Node.invalidated_applyEdit_mk, ho]
    simp
  | cons i q ih =>
    obtain ⟨sym, s, en, cs, nf, ie, im, inv⟩ := n
    rw [Node.descendant?_cons] at hd
    cases h : cs[i]? with
    | none => simp [h] at hd
    | some c =>
      simp [h] at hd
      have hmem : c ∈ cs := List.getElem?_mem h
      rw [Node.invalidated_applyEdit_mk]
      have : cs.any (fun c => (c.applyEdit e).invalidated) = true :=
        List.any_eq_true.mpr ⟨c, hmem, ih c hd⟩
      simp [this]


/-- Structural induction on nodes, with the claim available for every child. -/
theorem Node.induction_on {P : Node → Prop} (n : Node)
    (step : ∀ (sym s en : Nat) (cs : List Node) (nf : List (String × Nat)) (ie im inv : Bool),
      (∀ c ∈ cs, P c) → P (Node.mk sym s en cs nf ie im inv)) : P n := by
  have key : ∀ k : Nat, ∀ m : Node, sizeOf m < k → P m := by
    intro k
    induction k with
    | zero => intro m hm; omega
    | succ k ih =>
      intro m hm
      obtain ⟨sym, s, en, cs, nf, ie, im, inv⟩ := m
      apply step
      intro c hc
      apply ih
      have := List.sizeOf_lt_of_mem hc
      simp only [Node.mk.sizeOf_spec] at hm
      omega
  exact key (sizeOf n + 1) n (Nat.lt_succ_self _)

/-- A node that the edit does not overlap, and below which no node overlaps
it, keeps its mark, provided the marks of its subtree were closed upwards. -/
theorem Node.invalidated_applyEdit_of_no_overlap (e : Edit) (n : Node)
    (hc : n.marksClosed = true)
    (hno : ∀ (q : List Nat) (d : Node), n.descendant? q = some d → e.overlaps d = false) :
    (n.applyEdit e).invalidated = n.invalidated := by
  induction n using Node.induction_on with
  | step sym s en cs nf ie im inv ih =>
    simp only [Node.marksClosed, allMarksClosed_eq, Bool.and_eq_true, List.all_eq_true] at hc
    have hself := hno [] _ (Node.descendant?_nil _)
    have hch : cs.any (fun c => (c.applyEdit e).invalidated) = cs.any Node.invalidated := by
      have hpt : ∀ c ∈ cs, (c.applyEdit e).invalidated = c.invalidated := by
        intro c hmem
        apply ih c hmem (hc.2 c hmem)
        intro q d hd
        obtain ⟨i, hi⟩ := List.getElem?_of_mem hmem
        apply hno (i :: q) d
        rw [Node.descendant?_cons, hi]
        simpa using hd
      clear ih hno hc hself
      induction cs with
      | nil => rfl
      | cons c cs ihc =>
        simp only [List.any_cons]
        rw [hpt c (List.mem_cons_self _ _), ihc (fun c hm => hpt c (List.mem_cons_of_mem _ hm))]
    rw [Node.invalidated_applyEdit_mk, hself, hch]
    have h1 := hc.1
    simp only [Node.invalidated]
    cases inv <;> cases hany : cs.any Node.invalidated <;> simp_all

/-- The reuse test succeeds only on subtrees without any mark. -/
theorem Node.unmarked_of_reusable (n : Node) (q : List Nat) (d : Node)
    (hr : n.reusable = true) (hd : n.descendant? q = some d) : d.invalidated = false := by
  induction q generalizing n with
  | nil =>
    rw [Node.descendant?_nil] at hd
    have hnd : n = d := by simpa using hd
    subst hnd
    obtain ⟨sym, s, en, cs, nf, ie, im, inv⟩ := n
    simp only [Node.reusable, Bool.and_eq_true] at hr
    simpa [Node.invalidated] using hr.1
  | cons i q ih =>
    obtain ⟨sym, s, en, cs, nf, ie, im, inv⟩ := n
    rw [Node.descendant?_cons] at hd
    cases h : cs[i]? with
    | none => simp [h] at hd
    | some c =>
      simp [h] at hd
      have hmem : c ∈ cs := List.getElem?_mem h
      simp only [Node.reusable, allReusable_eq, Bool.and_eq_true, List.all_eq_true] at hr
      exact ih c (hr.2 c hmem) hd

/-- A tree without any mark, as the parser builds it, has upward-closed marks. -/
theorem Node.marksClosed_of_reusable (n : Node) (hr : n.reusable = true) :
    n.marksClosed = true := by
  induction n using Node.induction_on with
  | step sym s en cs nf ie im inv ih =>
    simp only [Node.reusable, allReusable_eq, Bool.and_eq_true, List.all_eq_true] at hr
    simp only [Node.marksClosed, allMarksClosed_eq, Bool.and_eq_true, List.all_eq_true]
    refine ⟨?_, fun c hmem => ih c hmem (hr.2 c hmem)⟩
    have : cs.any Node.invalidated = false := by
      rw [List.any_eq_false]
      intro c hmem
      have := Node.unmarked_of_reusable c [] c (hr.2 c hmem) (Node.descendant?_nil c)
      simp [this]
    simp [this]

/-- The edit algorithm leaves the marks closed upwards, whatever tree it
starts from. -/
theorem Node.marksClosed_applyEdit (e : Edit) (n : Node) :
    (n.applyEdit e).marksClosed = true := by
  induction n using Node.induction_on with
  | step sym s en cs nf ie im inv ih =>
    rw [Node.applyEdit_mk]
    simp only [Node.marksClosed, allMarksClosed_eq, Bool.and_eq_true, List.all_eq_true]
    refine ⟨?_, ?_⟩
    · cases (cs.map (Node.applyEdit e)).any Node.invalidated <;> simp
    · intro c hmem
      obtain ⟨c0, hc0, rfl⟩ := List.mem_map.mp hmem
      exact ih c0 hc0

/-- Every old tree an edit is applied to has upward-closed marks: it is the
unmarked tree of a parse after the edits applied so far. -/
theorem Node.marksClosed_applyEdits (es : List Edit) (n : Node) (hr : n.reusable = true) :
    (n.applyEdits es).marksClosed = true := by
  induction es using List.reverseRecOn with
  | nil => exact Node.marksClosed_of_reusable n hr
  | append_singleton es e _ =>
    simp only [Node.applyEdits, List.foldl_append, List.foldl_cons, List.foldl_nil]
    exact Node.marksClosed_applyEdit e _

theorem Node.range_applyEdit (e : Edit) (n : Node) :
    (n.applyEdit e).start_byte = (if e.liesAfter n = true then e.shift n.start_byte else n.start_byte) ∧
    (n.applyEdit e).end_byte = (if e.liesAfter n = true then e.shift n.end_byte else n.end_byte) := by
  obtain ⟨sym, s, en, cs, nf, ie, im, inv⟩ := n
  rw [Node.applyEdit_mk]
  simp [Node.start_byte, Node.end_byte, Edit.liesAfter]

/-- C8: one `Edit` applied to an old tree, seen at any node `n` of the tree
(reached by the path `p`).  The edited tree has a node `n'` at the same path,
and: if `n` lies entirely after `old_end_byte`, both ends of its range move by
exactly `new_end_byte - old_end_byte`; if the range of `n`, or of any node
below `n`, overlaps `[start_byte, old_end_byte]`, then `n'` is marked, which
covers the overlapping nodes and all their ancestors; a node that does not
lie after `old_end_byte` keeps its range, and a node that neither overlaps
nor has an overlapping node below it keeps its mark; and `n'` passes the
reuse test only if it and every descendant are unmarked. -/
theorem applyEdit_shifts_marks_and_keeps (e : Edit) (t : Node) (hc : t.marksClosed = true)
    (p : List Nat) (n : Node) (hn : t.descendant? p = some n) :
    ∃ n' : Node, (t.applyEdit e).descendant? p = some n' ∧
      (e.liesAfter n = true → n.start_byte ≤ n.end_byte →
        (n'.start_byte : Int) = n.start_byte + ((e.new_end_byte : Int) - e.old_end_byte) ∧
        (n'.end_byte : Int) = n.end_byte + ((e.new_end_byte : Int) - e.old_end_byte)) ∧
      (e.overlaps n = true → n'.invalidated = true) ∧
      (∀ (q : List Nat) (d : Node), n.descendant? q = some d → e.overlaps d = true →
        n'.invalidated = true) ∧
      (e.liesAfter n = false → n'.start_byte = n.start_byte ∧ n'.end_byte = n.end_byte) ∧
      ((∀ (q : List Nat) (d : Node), n.descendant? q = some d → e.overlaps d = false) →
        n'.invalidated = n.invalidated) ∧
      (n'.reusable = true →
        ∀ (q : List Nat) (d' : Node), n'.descendant? q = some d' → d'.invalidated = false) := by
  refine ⟨n.applyEdit e, ?_, ?_, ?_, ?_, ?_, ?_, ?_⟩
  · rw [Node.descendant?_applyEdit, hn]; rfl
  · intro hafter hrange
    have h := Node.range_applyEdit e n
    rw [hafter] at h
    simp only [if_true] at h
    have hlt : e.old_end_byte < n.start_byte := by simpa [Edit.liesAfter] using hafter
    rw [h.1, h.2]
    simp only [Edit.shift]
    constructor <;> omega
  · intro ho
    exact Node.invalidated_of_overlapping_descendant e n [] n (Node.descendant?_nil n) ho
  · intro q d hd ho
    exact Node.invalidated_of_overlapping_descendant e n q d hd ho
  · intro hafter
    have h := Node.range_applyEdit e n
    rw [hafter] at h
    simpa using h
  · intro hno
    exact Node.invalidated_applyEdit_of_no_overlap e n (Node.marksClosed_descendant t p n hc hn) hno
  · intro hr q d' hd'
    exact Node.unmarked_of_reusable _ q d' hr hd'

/-- On the example tree, the edit of `red` into `blue` moves the closing
brace from `[17, 18)` to `[18, 19)`. -/
theorem applyEdit_shifts_marks_and_keeps_witness :
    exampleTree.marksClosed = true ∧
    exampleTree.descendant? [0, 1, 1] = some (Node.mk 7 17 18 [] [] false false false) ∧
    exampleEdit.liesAfter (Node.mk 7 17 18 [] [] false false false) = true ∧
    ∃ n' : Node, (exampleTree.applyEdit exampleEdit).descendant? [0, 1, 1] = some n' ∧
      (n'.start_byte : Int) = 18 ∧ (n'.end_byte : Int) = 19 := by
  refine ⟨by decide, rfl, by decide, ?_⟩
  obtain ⟨n', hn', hshift, _⟩ :=
    applyEdit_shifts_marks_and_keeps exampleEdit exampleTree (by decide) [0, 1, 1]
      (Node.mk 7 17 18 [] [] false false false) rfl
  have h := hshift (by decide) (by decide)
  exact ⟨n', hn', by simpa [Node.start_byte, exampleEdit] using h.1,
    by simpa [Node.end_byte, exampleEdit] using h.2⟩

/-- On the example tree, the edit of `red` into `blue` leaves the selector
reusable and marks the value together with the declaration, the block, the
rule and the root above it. -/
theorem exampleTree_marks_after_edit :
    ((exampleTree.applyEdit exampleEdit).descendant? [0, 0]).map Node.reusable = some true ∧
    ((exampleTree.applyEdit exampleEdit).descendant? [0, 1, 0, 1]).map Node.invalidated
      = some true ∧
    ((exampleTree.applyEdit exampleEdit).descendant? [0, 1, 0]).map Node.invalidated
      = some true ∧
    ((exampleTree.applyEdit exampleEdit).descendant? [0, 1]).map Node.invalidated = some true ∧
    ((exampleTree.applyEdit exampleEdit).descendant? [0]).map Node.invalidated = some true ∧
    ((exampleTree.applyEdit exampleEdit).descendant? []).map Node.invalidated = some true := by
  decide

end Reparser

/-! ## The source texts of the worked examples -/

/-- The input of the missing-value example is 13 bytes long. -/
theorem missingValueSource_size : missingValueSource.utf8ByteSize = 13 := by decide

/-- The input of the reuse example is 18 bytes long. -/
theorem reuseSource_size : reuseSource.utf8ByteSize = 18 := by decide

/-- In the reuse example the text `red` is the byte range `[12, 15)`. -/
theorem reuseSource_red : byteSlice reuseSource 12 15 = "red".toUTF8.data.toList := by decide

/-- In the reuse example the byte range `[13, 16)` holds `ed;`. -/
theorem reuseSource_13_16 : byteSlice reuseSource 13 16 = "ed;".toUTF8.data.toList := by decide
